import Mathlib

/-!
# Verification of the Φ-Chain consensus engine

Shallow embedding of `src/core/fibonacci_logic.py` (class `PhiMath`) and
`src/phi/consensus/phi_validator.py` (dataclass `Validator`, class
`PhiConsensus`) in Lean 4, together with proofs settling the frozen claims
about the natural-language specification of the engine.

The Python code performs its non-integer arithmetic with `decimal.Decimal`
under a module-level context `getcontext().prec = 50` (50 significant
digits, default rounding `ROUND_HALF_EVEN`).  We model a `Decimal` by the
exact rational value it denotes, and every arithmetic operation
(`+`, `*`, `/`, `sqrt`, integer `**`) by the exact rational operation
followed by rounding to 50 significant digits, half to even — the
documented semantics of those context operations.  `int(d)` truncates
toward zero, and `quantize(Decimal('1e-10'))` rounds to a fixed number of
fractional digits.

So that every definition can be evaluated by kernel reduction on concrete
inputs, rational arithmetic inside definitions is expressed through the
reducible constructors `mkRat` / `Rat.divInt` / `Rat.floor` rather than
the (irreducible) field operations of `ℚ`; the lemmas `qMul_eq`, `qAdd_eq`,
`qSub_eq`, `qDiv_eq`, `pow10_eq`, `pyMin_eq`, `ratFloor_eq` identify them
with the standard operations, and all reasoning is done abstractly.
-/

set_option maxRecDepth 8000

namespace PhiChain

/-! ## Kernel-reducible rational arithmetic -/

/-- Exact rational multiplication (same value as `a * b`). -/
def qMul (a b : ℚ) : ℚ := mkRat (a.num * b.num) (a.den * b.den)

/-- Exact rational addition (same value as `a + b`). -/
def qAdd (a b : ℚ) : ℚ := mkRat (a.num * b.den + b.num * a.den) (a.den * b.den)

/-- Exact rational subtraction (same value as `a - b`). -/
def qSub (a b : ℚ) : ℚ := mkRat (a.num * b.den - b.num * a.den) (a.den * b.den)

/-- Exact rational division (same value as `a / b`, with `a / 0 = 0`). -/
def qDiv (a b : ℚ) : ℚ := Rat.divInt (a.num * b.den) (a.den * b.num)

/-- `10 ^ e` for an integer exponent `e` (same value as the zpow). -/
def pow10 (e : ℤ) : ℚ := Rat.divInt ((10 ^ e.toNat : ℕ) : ℤ) ((10 ^ (-e).toNat : ℕ) : ℤ)

/-- Python's binary `min` (same value as `min a b`). -/
def pyMin (a b : ℚ) : ℚ := if a ≤ b then a else b

/-- Integer to rational (same value as the cast). -/
def qOfInt (n : ℤ) : ℚ := mkRat n 1

/-- Rational negation (same value as `-a`). -/
def qNeg (a : ℚ) : ℚ := mkRat (-a.num) a.den

/-- Rational power with natural exponent (same value as `a ^ n`). -/
def qPowNat (a : ℚ) : ℕ → ℚ
  | 0 => 1
  | n+1 => qMul (qPowNat a n) a

/-! ## The 50-significant-digit decimal model -/

/-- Number of decimal digits of `n` (fuel-driven so that the kernel can
evaluate it); `ndigits 0 = 1`. -/
def ndigitsAux : Nat → Nat → Nat
  | 0, _ => 1
  | fuel+1, n => if n < 10 then 1 else ndigitsAux fuel (n / 10) + 1

def ndigits (n : Nat) : Nat := ndigitsAux n n

/-- `magQ x` for `x > 0` is the unique integer `e` with
`10^(e-1) ≤ x < 10^e` (the adjusted decimal exponent plus one). -/
def magQ (x : ℚ) : ℤ :=
  if x < pow10 ((ndigits x.num.natAbs : ℤ) - (ndigits x.den : ℤ))
  then (ndigits x.num.natAbs : ℤ) - (ndigits x.den : ℤ)
  else (ndigits x.num.natAbs : ℤ) - (ndigits x.den : ℤ) + 1

/-- Round a rational to an integer, half to even (the `ROUND_HALF_EVEN`
mode of Python `decimal`). -/
def roundHalfEvenQ (q : ℚ) : ℤ :=
  if qSub q (qOfInt (Rat.floor q)) < mkRat 1 2 then Rat.floor q
  else if mkRat 1 2 < qSub q (qOfInt (Rat.floor q)) then Rat.floor q + 1
  else if Rat.floor q % 2 = 0 then Rat.floor q else Rat.floor q + 1

/-- Round a positive rational to 50 significant decimal digits,
half to even. -/
def decRoundPos (x : ℚ) : ℚ :=
  qMul (qOfInt (roundHalfEvenQ (qMul x (pow10 (50 - magQ x)))))
    (pow10 (-(50 - magQ x)))

/-- Round a rational to 50 significant decimal digits, half to even: the
result of an arithmetic operation in a Python `decimal` context with
`prec = 50`.  Decimals are sign-magnitude, so a negative value is rounded
via its absolute value. -/
def decRound (x : ℚ) : ℚ :=
  if x = 0 then 0 else if x < 0 then qNeg (decRoundPos (qNeg x)) else decRoundPos x

/-- `Decimal` addition under `prec = 50`. -/
def decAdd (x y : ℚ) : ℚ := decRound (qAdd x y)

/-- `Decimal` multiplication under `prec = 50`. -/
def decMul (x y : ℚ) : ℚ := decRound (qMul x y)

/-- `Decimal` division under `prec = 50` (correctly rounded). -/
def decDiv (x y : ℚ) : ℚ := decRound (qDiv x y)

/-- `Decimal` power with a natural exponent under `prec = 50`, modelled as
correctly rounded. -/
def decPow (x : ℚ) (n : Nat) : ℚ := decRound (qPowNat x n)

/-- `int(d)` on a `Decimal`: truncation toward zero. -/
def decInt (x : ℚ) : ℤ := if x < 0 then -Rat.floor (qNeg x) else Rat.floor x

/-- `d.quantize(Decimal('1e-10'))`: round to 10 fractional digits,
half to even. -/
def quantize10 (x : ℚ) : ℚ :=
  qMul (qOfInt (roundHalfEvenQ (qMul x (pow10 10)))) (pow10 (-10))

/-- `Decimal(5).sqrt()` under `prec = 50`: the correctly rounded 50-digit
value of `√5` (correctness is `sqrt5dec_correct` below). -/
def sqrt5dec : ℚ := mkRat 22360679774997896964091736687312762354406183596115 (10 ^ 49)

/-- `PhiMath.__init__`: `self._phi = (Decimal(1) + Decimal(5).sqrt()) / Decimal(2)`. -/
def phiDec : ℚ := decDiv (decAdd 1 sqrt5dec) 2

/-- `PhiMath.golden_ratio(10)`: `self._phi.quantize(Decimal('1e-10'))`. -/
def goldenRatio10 : ℚ := quantize10 phiDec

/-! ## `PhiMath` integer Fibonacci utilities -/

/-- Iterative pair `(F n, F (n+1))`, mirroring the accumulator loop of
`PhiMath.fibonacci`. -/
def fibAux : Nat → Nat × Nat
  | 0 => (0, 1)
  | n+1 => let p := fibAux n; (p.2, p.1 + p.2)

/-- `PhiMath.fibonacci(n)`: the nth Fibonacci number, `F 0 = 0`, `F 1 = 1`,
computed iteratively. -/
def fibonacci (n : Nat) : Nat := (fibAux n).1

/-- `PhiMath.fibonacci_sequence(start, count)`: the list
`[F start, …, F (start+count-1)]`. -/
def fibonacci_sequence (start count : Nat) : List Nat :=
  (List.range count).map (fun i => fibonacci (start + i))

/-- The sum of the first `count` Fibonacci numbers starting at `F 1`
(`total_fib` in `PhiMath.fibonacci_distribution`). -/
def fibSum (count : Nat) : Nat := (fibonacci_sequence 1 count).sum

/-- One slot's share in `PhiMath.fibonacci_distribution`:
`int(Decimal(fib) / Decimal(totalFib) * Decimal(total))` under the
50-digit context. -/
def truncShare (total totalFib fib : Nat) : ℤ :=
  decInt (decMul (decDiv (fib : ℚ) (totalFib : ℚ)) (total : ℚ))

/-- The list of per-slot shares produced by the loop in
`PhiMath.fibonacci_distribution` (before the leftover is added to
slot 0). -/
def rawShares (total count : Nat) : List ℤ :=
  (fibonacci_sequence 1 count).map (fun f => truncShare total (fibSum count) f)

/-- `PhiMath.fibonacci_distribution(total, count)`: apportion `total`
across `count` slots proportionally to `F 1 .. F count`, adding the
truncation leftover (`remaining_reward`) to slot 0.  `total` is taken
non-negative, as in every claim about it. -/
def fibonacci_distribution (total count : Nat) : List ℤ :=
  if count = 0 then []
  else if fibSum count = 0 then List.replicate count 0
  else
    match rawShares total count with
    | [] => []
    | s0 :: rest => (s0 + ((total : ℤ) - (s0 :: rest).sum)) :: rest

/-! ## The consensus engine (`phi_validator.py`) -/

/-- The `Validator` dataclass.  `weight` and `performance_score` are
`Decimal`s, modelled by their exact rational values; `stake` is a Python
`int`; `last_validated` is an `int(time.time())` timestamp. -/
structure Validator where
  address : String
  public_key : String
  stake : ℤ
  weight : ℚ
  fibonacci_index : ℕ
  is_active : Bool := true
  last_validated : ℤ := 0
  performance_score : ℚ := 1
deriving DecidableEq, Repr

/-- The `PhiConsensus` engine state.  `self.validators` is a Python `dict`
keyed by address; a `dict` preserves insertion order, so it is modelled as
the insertion-ordered list of its values (with addresses unique by
construction). -/
structure PhiConsensus where
  network_id : String := "phi-mainnet-1"
  validators : List Validator := []
  current_leader_index : ℕ := 0
  round_number : ℕ := 0
deriving DecidableEq, Repr

/-- `address in self.validators` / `self.validators[address]`: first (and,
with unique addresses, only) entry with the given key. -/
def PhiConsensus.lookup (s : PhiConsensus) (address : String) : Option Validator :=
  s.validators.find? (fun v => v.address = address)

/-- `[v for v in self.validators.values() if v.is_active]`: the active
validators in registry insertion order. -/
def PhiConsensus.activeList (s : PhiConsensus) : List Validator :=
  s.validators.filter (fun v => v.is_active)

/-- `Validator.get_priority_score(block_height)`:
`stake * weight * performance * (fib(h mod 100)/1000) * phi^(index mod 10)`
in 50-digit `Decimal` arithmetic. -/
def Validator.get_priority_score (v : Validator) (block_height : ℕ) : ℚ :=
  let fib_number := fibonacci (block_height % 100)
  let phi := goldenRatio10
  let base_priority := decMul (decMul (qOfInt v.stake) v.weight) v.performance_score
  let modulation := decDiv (fib_number : ℚ) (1000 : ℚ)
  let golden_scaling := decPow phi (v.fibonacci_index % 10)
  decMul (decMul base_priority modulation) golden_scaling

/-- `total_priority`: the `Decimal` running sum (`+=`) of the active
validators' priority scores, in list order starting from `Decimal('0')`. -/
def PhiConsensus.totalPriority (s : PhiConsensus) (block_height : ℕ) : ℚ :=
  (s.activeList.map (fun v => v.get_priority_score block_height)).foldl decAdd 0

/-- `PhiConsensus.add_validator(address, public_key, stake, fibonacci_index)`:
fails if the address exists; otherwise defaults the index to the registry
size, computes `weight = golden_ratio(10) ** index` and appends the new
validator.  Returns the `bool` result and the new state. -/
def PhiConsensus.add_validator (s : PhiConsensus) (address public_key : String)
    (stake : ℤ) (fibonacci_index : Option ℕ := none) : Bool × PhiConsensus :=
  if (s.lookup address).isSome then (false, s)
  else
    let idx := fibonacci_index.getD s.validators.length
    let weight := decPow goldenRatio10 idx
    let v : Validator :=
      { address := address, public_key := public_key, stake := stake,
        weight := weight, fibonacci_index := idx, is_active := true,
        last_validated := 0, performance_score := 1 }
    (true, { s with validators := s.validators ++ [v] })

/-- `PhiConsensus.select_leader(block_height)`: returns the chosen leader
(or none) together with the updated state. -/
def PhiConsensus.select_leader (s : PhiConsensus) (block_height : ℕ) :
    Option Validator × PhiConsensus :=
  if s.validators = [] then (none, s)
  else if hA : s.activeList = [] then (none, s)
  else if s.totalPriority block_height = 0 then (some (s.activeList.head hA), s)
  else
    let n := s.activeList.length
    let fib_number := fibonacci (block_height % n)
    let selection_index := fib_number % n
    let selected_validator := s.activeList.getD selection_index (s.activeList.head hA)
    (some selected_validator,
     { s with current_leader_index := selection_index,
              round_number := s.round_number + 1 })

/-- The `mathematical_proof` dict of a block: either field may be absent
(`dict.get` returning `None`). -/
structure MathProof where
  fibonacci_number : Option ℤ := none
  fibonacci_index : Option ℤ := none
deriving DecidableEq, Repr

/-- The `header` dict of a block (`golden_ratio_hash` defaults to `""`). -/
structure BlockHeader where
  golden_ratio_hash : String := ""
deriving DecidableEq, Repr

/-- A block proposal as consumed by `validate_block` (`height` defaults
to 0, `signature` to `""`). -/
structure BlockData where
  height : ℕ := 0
  mathematical_proof : MathProof := {}
  header : BlockHeader := {}
  signature : String := ""
deriving DecidableEq, Repr

/-- `PhiConsensus._verify_fibonacci_proof`: the proof's `fibonacci_number`
must equal `fibonacci(height % 1000)` and its `fibonacci_index` must equal
`height % 1000`. -/
def verify_fibonacci_proof (math_proof : MathProof) (block_data : BlockData) : Bool :=
  let expected_fib : ℤ := fibonacci (block_data.height % 1000)
  let expected_index : ℤ := (block_data.height % 1000 : ℕ)
  if math_proof.fibonacci_number = some expected_fib then
    if math_proof.fibonacci_index = some expected_index then true
    else false
  else false

/-- `PhiConsensus._verify_golden_hash`: the `golden_ratio_hash` must be
present (non-empty) and 64 characters long. -/
def verify_golden_hash (block_data : BlockData) : Bool :=
  if block_data.header.golden_ratio_hash = "" then false
  else if block_data.header.golden_ratio_hash.length = 64 then true
  else false

/-- `PhiConsensus._verify_signature`: a placeholder that accepts every
block (an absent signature is allowed in test mode, a present one is
accepted unconditionally). -/
def verify_signature (block_data : BlockData) (public_key : String) : Bool :=
  true

/-- The success branch of `PhiConsensus._update_validator_performance`:
`new_score = old*0.95 + 0.05` capped at `1.0` (50-digit `Decimal`). -/
def successScore (old : ℚ) : ℚ :=
  pyMin (decAdd (decMul old (mkRat 19 20)) (mkRat 1 20)) 1

/-- The failure branch (`score *= 0.9`), present in the source but never
reached by any caller. -/
def decayScore (old : ℚ) : ℚ := decMul old (mkRat 9 10)

/-- `PhiConsensus._update_validator_performance(address, success)`:
no-op if the address is unknown, otherwise updates the validator's
`performance_score` and sets `last_validated` to the current time. -/
def PhiConsensus.update_validator_performance (s : PhiConsensus) (address : String)
    (success : Bool) (now : ℤ) : PhiConsensus :=
  if (s.lookup address).isNone then s
  else
    { s with validators := s.validators.map (fun v =>
        if v.address = address then
          { v with
            performance_score := if success then successScore v.performance_score
                                 else decayScore v.performance_score,
            last_validated := now }
        else v) }

/-- `PhiConsensus.validate_block(block_data, proposer_address)`: the
boolean result together with the (possibly updated) state.  `now` is the
`time.time()` ambient input. -/
def PhiConsensus.validate_block (s : PhiConsensus) (block_data : BlockData)
    (proposer_address : String) (now : ℤ) : Bool × PhiConsensus :=
  match s.lookup proposer_address with
  | none => (false, s)
  | some proposer =>
    if !proposer.is_active then (false, s)
    else if !verify_fibonacci_proof block_data.mathematical_proof block_data then (false, s)
    else if !verify_golden_hash block_data then (false, s)
    else if !verify_signature block_data proposer.public_key then (false, s)
    else (true, s.update_validator_performance proposer_address true now)

/-- `PhiConsensus.get_validator_rotation_schedule(blocks_ahead)`:
`(offset, address)` pairs with the address selected by
`fibonacci(offset % 20) % N` over the active addresses in registry
insertion order. -/
def PhiConsensus.get_validator_rotation_schedule (s : PhiConsensus)
    (blocks_ahead : ℕ := 100) : List (ℕ × String) :=
  let active_validators := s.activeList.map (fun v => v.address)
  if active_validators = [] then []
  else
    (List.range blocks_ahead).map (fun block_offset =>
      (block_offset,
       active_validators.getD (fibonacci (block_offset % 20) % active_validators.length) ""))

/-- `PhiConsensus.calculate_rewards(block_height, total_reward)`: the
returned `dict` address → amount, as its insertion-ordered association
list (`block_height` is unused by the body). -/
def PhiConsensus.calculate_rewards (s : PhiConsensus) (block_height : ℕ)
    (total_reward : ℕ) : List (String × ℤ) :=
  let active_validators := s.activeList
  if active_validators = [] then []
  else
    let amounts := fibonacci_distribution total_reward active_validators.length
    active_validators.enum.map (fun p => (p.2.address, amounts.getD p.1 0))

/-- The mutating entry points of the engine, for stating state-evolution
invariants over arbitrary operation sequences. -/
inductive EngineOp where
  | addOp (address public_key : String) (stake : ℤ) (fibonacci_index : Option ℕ)
  | selectOp (block_height : ℕ)
  | validateOp (block_data : BlockData) (proposer_address : String) (now : ℤ)
deriving DecidableEq, Repr

/-- State reached after one engine operation. -/
def applyOp (s : PhiConsensus) : EngineOp → PhiConsensus
  | .addOp a pk st idx => (s.add_validator a pk st idx).2
  | .selectOp h => (s.select_leader h).2
  | .validateOp b p now => (s.validate_block b p now).2

/-- State reached after a sequence of engine operations. -/
def applyOps (s : PhiConsensus) (ops : List EngineOp) : PhiConsensus :=
  ops.foldl applyOp s

/-- Lexicographic code-point comparison of character lists: the order
Python uses on `str` (and the reading of "sorted by address ascending"). -/
def addrLeAux : List Char → List Char → Bool
  | [], _ => true
  | _ :: _, [] => false
  | a :: as, b :: bs =>
    if a.toNat < b.toNat then true
    else if b.toNat < a.toNat then false
    else addrLeAux as bs

/-- `a ≤ b` on addresses, lexicographically by code point. -/
def addrLe (a b : String) : Bool := addrLeAux a.data b.data

/-- Modelled from the spec: `canonical_active_list()` — "returns active
validators sorted by `address` ascending".  This operation does not occur
in the source; it is the spec-side ordering against which the source's
insertion ordering is compared (claim C2). -/
def canonical_active_list (s : PhiConsensus) : List Validator :=
  s.activeList.insertionSort (fun u v => addrLe u.address v.address)

/-! ## Concrete fixtures used by witnesses and counterexamples -/

/-- A fresh engine (the `__init__` state). -/
def emptyEngine : PhiConsensus := {}

/-- One validator `"a"` with stake 1 (default `fibonacci_index = 0`). -/
def sA : PhiConsensus := (emptyEngine.add_validator "a" "pka" 1 none).2

/-- Validators `"a"`, `"b"` added in that order, stake 1 each. -/
def sAB : PhiConsensus := (sA.add_validator "b" "pkb" 1 none).2

/-- Validators `"a"`, `"b"`, `"c"` added in that order, stake 1 each. -/
def sABC : PhiConsensus := (sAB.add_validator "c" "pkc" 1 none).2

/-- Validators `"b"` then `"a"` (insertion order opposite to address order). -/
def sBA : PhiConsensus :=
  ((emptyEngine.add_validator "b" "pkb" 1 none).2.add_validator "a" "pka" 1 none).2

/-- `"a"` (index 0) then `"b"` (index 1), indices given explicitly. -/
def sAB2 : PhiConsensus :=
  ((emptyEngine.add_validator "a" "pka" 1 (some 0)).2.add_validator "b" "pkb" 1 (some 1)).2

/-- `"b"` (index 1) then `"a"` (index 0): the same two validator records as
`sAB2`, inserted in the opposite order. -/
def sBA2 : PhiConsensus :=
  ((emptyEngine.add_validator "b" "pkb" 1 (some 1)).2.add_validator "a" "pka" 1 (some 0)).2

/-- The validator record stored for `"a"` in `sA`. -/
def vA : Validator :=
  { address := "a", public_key := "pka", stake := 1,
    weight := decPow goldenRatio10 0, fibonacci_index := 0 }

/-- A proposal for height 1 passing every check (`fibonacci(1 % 1000) = 1`). -/
def goodBlockA : BlockData :=
  { height := 1,
    mathematical_proof := { fibonacci_number := some 1, fibonacci_index := some 1 },
    header := { golden_ratio_hash :=
      "aaaaaaaaaaaaaaaaaaaaaaaaaaaaaaaaaaaaaaaaaaaaaaaaaaaaaaaaaaaaaaaa" },
    signature := "sig" }

/-- A proposal for height 1 whose proof carries the wrong Fibonacci number. -/
def badBlockA : BlockData :=
  { goodBlockA with
    mathematical_proof := { fibonacci_number := some 2, fibonacci_index := some 1 } }

/-! ## Identification of the reducible arithmetic with the standard operations -/

theorem den_cast_ne (a : ℚ) : ((a.den : ℚ)) ≠ 0 :=
  Nat.cast_ne_zero.mpr a.den_nz

theorem qMul_eq (a b : ℚ) : qMul a b = a * b := by
  rw [qMul, Rat.mkRat_eq_div]
  push_cast
  conv_rhs => rw [← Rat.num_div_den a, ← Rat.num_div_den b]
  rw [div_mul_div_comm]

theorem qAdd_eq (a b : ℚ) : qAdd a b = a + b := by
  rw [qAdd, Rat.mkRat_eq_div]
  push_cast
  conv_rhs => rw [← Rat.num_div_den a, ← Rat.num_div_den b]
  field_simp

theorem qSub_eq (a b : ℚ) : qSub a b = a - b := by
  rw [qSub, Rat.mkRat_eq_div]
  push_cast
  conv_rhs => rw [← Rat.num_div_den a, ← Rat.num_div_den b]
  field_simp
  ring

theorem qDiv_eq (a b : ℚ) : qDiv a b = a / b := by
  rw [qDiv, Rat.divInt_eq_div]
  rcases eq_or_ne b 0 with rfl | hb
  · simp
  · have hbnum : (b.num : ℚ) ≠ 0 := by
      exact_mod_cast Rat.num_ne_zero.mpr hb
    push_cast
    conv_rhs => rw [← Rat.num_div_den a, ← Rat.num_div_den b]
    rw [div_div_div_comm, div_div_eq_mul_div, div_mul_eq_mul_div,
      mul_comm ((a.den : ℚ)) ((b.num : ℚ))]
    field_simp

theorem pow10_eq (e : ℤ) : pow10 e = (10:ℚ) ^ e := by
  rw [pow10, Rat.divInt_eq_div]
  cases e with
  | ofNat n =>
    have h1 : (Int.ofNat n).toNat = n := rfl
    have h2 : (-(Int.ofNat n)).toNat = 0 ∨ n = 0 := by
      cases n with
      | zero => exact Or.inr rfl
      | succ m => exact Or.inl rfl
    rcases h2 with h2 | rfl
    · rw [h1, h2]
      push_cast
      simp [zpow_natCast]
    · simp
  | negSucc n =>
    have h1 : (Int.negSucc n).toNat = 0 := rfl
    have h2 : (-(Int.negSucc n)).toNat = n + 1 := rfl
    rw [h1, h2, zpow_negSucc]
    push_cast
    simp [one_div]

theorem pyMin_eq (a b : ℚ) : pyMin a b = min a b := (min_def a b).symm

theorem ratFloor_eq (q : ℚ) : Rat.floor q = ⌊q⌋ := by
  rw [Rat.floor_def' q, Rat.floor_def]

theorem qOfInt_eq (n : ℤ) : qOfInt n = (n : ℚ) := by
  rw [qOfInt, Rat.mkRat_eq_div]
  simp

theorem qNeg_eq (a : ℚ) : qNeg a = -a := by
  rw [qNeg, Rat.mkRat_eq_div]
  push_cast
  rw [neg_div, Rat.num_div_den]

theorem qPowNat_eq (a : ℚ) (n : ℕ) : qPowNat a n = a ^ n := by
  induction n with
  | zero => rfl
  | succ m ih => rw [qPowNat, qMul_eq, ih, pow_succ]

/-- `sqrt5dec` is the half-even rounding of `√5` to 50 significant digits:
with `c` its integer coefficient, `(2c-1)² < 4·5·10⁹⁸ < (2c+1)²`, so `√5`
lies strictly between `(c - 1/2)/10⁴⁹` and `(c + 1/2)/10⁴⁹`. -/
theorem sqrt5dec_correct :
    (2 * 22360679774997896964091736687312762354406183596115 - 1) ^ 2 < 4 * 5 * 10 ^ 98 ∧
    4 * 5 * 10 ^ 98 < (2 * 22360679774997896964091736687312762354406183596115 + 1) ^ 2 := by
  constructor <;> norm_num

/-! ## Correctness of the rounding model -/

theorem ndigitsAux_pos (fuel n : ℕ) : 1 ≤ ndigitsAux fuel n := by
  cases fuel with
  | zero => exact le_refl 1
  | succ f =>
    rw [ndigitsAux]
    split
    · exact le_refl 1
    · omega

theorem ndigitsAux_spec : ∀ (fuel n : ℕ), 1 ≤ n → n ≤ fuel →
    10 ^ (ndigitsAux fuel n - 1) ≤ n ∧ n < 10 ^ ndigitsAux fuel n := by
  intro fuel
  induction fuel with
  | zero => intro n h1 h2; omega
  | succ f ih =>
    intro n h1 h2
    rw [ndigitsAux]
    by_cases h10 : n < 10
    · rw [if_pos h10]
      constructor
      · simpa using h1
      · simpa using h10
    · rw [if_neg h10]
      have hrec := ih (n / 10) (by omega) (by
        have : n / 10 < n := Nat.div_lt_self (by omega) (by omega)
        omega)
      have hd1 : 1 ≤ ndigitsAux f (n / 10) := ndigitsAux_pos f (n / 10)
      constructor
      · have h1' := hrec.1
        calc 10 ^ (ndigitsAux f (n / 10) + 1 - 1)
            = 10 ^ (ndigitsAux f (n / 10) - 1) * 10 := by
              rw [← pow_succ]
              congr 1
              omega
          _ ≤ (n / 10) * 10 := Nat.mul_le_mul_right _ h1'
          _ ≤ n := Nat.div_mul_le_self n 10
      · have h2' := hrec.2
        have hmod := Nat.div_add_mod n 10
        have hlt : n % 10 < 10 := Nat.mod_lt _ (by omega)
        calc n < (n / 10 + 1) * 10 := by omega
          _ ≤ 10 ^ ndigitsAux f (n / 10) * 10 := Nat.mul_le_mul_right _ (by omega)
          _ = 10 ^ (ndigitsAux f (n / 10) + 1) := (pow_succ 10 _).symm

theorem ndigits_spec (n : ℕ) (h : 1 ≤ n) :
    10 ^ (ndigits n - 1) ≤ n ∧ n < 10 ^ ndigits n :=
  ndigitsAux_spec n n h le_rfl

theorem ndigits_pos (n : ℕ) : 1 ≤ ndigits n := ndigitsAux_pos n n

theorem magQ_spec (x : ℚ) (hx : 0 < x) :
    (10:ℚ) ^ (magQ x - 1) ≤ x ∧ x < (10:ℚ) ^ magQ x := by
  have hnum : 0 < x.num := Rat.num_pos.mpr hx
  have ha1 : 1 ≤ x.num.natAbs := by omega
  have hb1 : 1 ≤ x.den := x.pos
  obtain ⟨hA1, hA2⟩ := ndigits_spec x.num.natAbs ha1
  obtain ⟨hB1, hB2⟩ := ndigits_spec x.den hb1
  have hxab : x = ((x.num.natAbs : ℚ)) / ((x.den : ℚ)) := by
    conv_lhs => rw [← Rat.num_div_den x]
    congr 1
    rw [Int.cast_natAbs, abs_of_pos]
    exact_mod_cast hnum
  have hbpos : (0:ℚ) < ((x.den : ℚ)) := by positivity
  have hapos : (0:ℚ) < ((x.num.natAbs : ℚ)) := by exact_mod_cast ha1
  set da := ndigits x.num.natAbs with hda
  set db := ndigits x.den with hdb
  have hA2q : ((x.num.natAbs : ℚ)) < (10:ℚ) ^ da := by exact_mod_cast hA2
  have hA1q : (10:ℚ) ^ (da - 1) ≤ ((x.num.natAbs : ℚ)) := by exact_mod_cast hA1
  have hB2q : ((x.den : ℚ)) < (10:ℚ) ^ db := by exact_mod_cast hB2
  have hB1q : (10:ℚ) ^ (db - 1) ≤ ((x.den : ℚ)) := by exact_mod_cast hB1
  have hda1 : 1 ≤ da := ndigits_pos _
  have hdb1 : 1 ≤ db := ndigits_pos _
  have upper : x < (10:ℚ) ^ ((da:ℤ) - (db:ℤ) + 1) := by
    calc x = ((x.num.natAbs : ℚ)) / ((x.den : ℚ)) := hxab
      _ ≤ ((x.num.natAbs : ℚ)) / (10:ℚ) ^ (db - 1) :=
          div_le_div_of_nonneg_left (le_of_lt hapos) (by positivity) hB1q
      _ < (10:ℚ) ^ da / (10:ℚ) ^ (db - 1) :=
          (div_lt_div_right (by positivity)).mpr hA2q
      _ = (10:ℚ) ^ ((da:ℤ) - (db:ℤ) + 1) := by
          rw [← zpow_natCast (10:ℚ) da, ← zpow_natCast (10:ℚ) (db - 1),
            ← zpow_sub₀ (by norm_num : (10:ℚ) ≠ 0)]
          congr 1
          omega
  have lower : (10:ℚ) ^ ((da:ℤ) - (db:ℤ) - 1) < x := by
    calc (10:ℚ) ^ ((da:ℤ) - (db:ℤ) - 1)
        = (10:ℚ) ^ (da - 1) / (10:ℚ) ^ db := by
          rw [← zpow_natCast (10:ℚ) (da - 1), ← zpow_natCast (10:ℚ) db,
            ← zpow_sub₀ (by norm_num : (10:ℚ) ≠ 0)]
          congr 1
          omega
      _ < (10:ℚ) ^ (da - 1) / ((x.den : ℚ)) :=
          div_lt_div_of_pos_left (by positivity) hbpos hB2q
      _ ≤ ((x.num.natAbs : ℚ)) / ((x.den : ℚ)) :=
          (div_le_div_right hbpos).mpr hA1q
      _ = x := hxab.symm
  rw [magQ]
  by_cases hc : x < pow10 ((da:ℤ) - (db:ℤ))
  · rw [if_pos hc]
    rw [pow10_eq] at hc
    exact ⟨le_of_lt lower, hc⟩
  · rw [if_neg hc]
    rw [pow10_eq] at hc
    push_neg at hc
    constructor
    · have : (da:ℤ) - (db:ℤ) + 1 - 1 = (da:ℤ) - (db:ℤ) := by omega
      rw [this]
      exact hc
    · exact upper

theorem mkRat_half : mkRat 1 2 = (1:ℚ)/2 := by
  rw [Rat.mkRat_eq_div]
  norm_num

theorem roundHalfEvenQ_intCast (n : ℤ) : roundHalfEvenQ ((n:ℚ)) = n := by
  have hfl : Rat.floor ((n:ℚ)) = n := by
    rw [ratFloor_eq]
    exact Int.floor_intCast n
  rw [roundHalfEvenQ, hfl, qSub_eq, qOfInt_eq, sub_self, mkRat_half]
  rw [if_pos (by norm_num : (0:ℚ) < 1/2)]

theorem roundHalfEvenQ_nonneg (q : ℚ) (h : 0 ≤ q) : 0 ≤ roundHalfEvenQ q := by
  have hf : 0 ≤ Rat.floor q := by
    rw [ratFloor_eq]
    exact Int.floor_nonneg.mpr h
  rw [roundHalfEvenQ]
  split_ifs <;> omega

theorem decRound_zero : decRound 0 = 0 := by
  rw [decRound, if_pos rfl]

theorem decRoundPos_nonneg (x : ℚ) (hx : 0 < x) : 0 ≤ decRoundPos x := by
  have hy : (0:ℚ) ≤ qMul x (pow10 (50 - magQ x)) := by
    rw [qMul_eq, pow10_eq]
    positivity
  have h1 : (0:ℚ) ≤ ((roundHalfEvenQ (qMul x (pow10 (50 - magQ x))) : ℚ)) := by
    exact_mod_cast roundHalfEvenQ_nonneg _ hy
  rw [decRoundPos]
  generalize hN : roundHalfEvenQ (qMul x (pow10 (50 - magQ x))) = N at h1
  rw [qMul_eq, qOfInt_eq, pow10_eq]
  exact mul_nonneg h1 (by positivity)

theorem decRound_nonneg (x : ℚ) (hx : 0 ≤ x) : 0 ≤ decRound x := by
  rcases eq_or_lt_of_le hx with h | h
  · rw [← h, decRound_zero]
  · rw [decRound, if_neg h.ne', if_neg (not_lt.mpr (le_of_lt h))]
    exact decRoundPos_nonneg x h

/-- Exactness: a value representable with at most 50 significant decimal
digits is left unchanged by 50-digit rounding. -/
theorem decRound_eq_of (x : ℚ) (m j : ℕ) (hm : m < 10 ^ 50)
    (hx : x = (m:ℚ) / 10 ^ j) : decRound x = x := by
  rcases Nat.eq_zero_or_pos m with rfl | hm1
  · have hx0 : x = 0 := by rw [hx]; simp
    rw [hx0, decRound_zero]
  · have hxpos : 0 < x := by
      rw [hx]
      positivity
    have hmagle : magQ x ≤ 50 - (j:ℤ) := by
      by_contra hcon
      push_neg at hcon
      have h1 := (magQ_spec x hxpos).1
      have h2 : x < (10:ℚ) ^ ((50:ℤ) - j) := by
        rw [hx]
        have hmq : ((m:ℚ)) < (10:ℚ) ^ (50:ℕ) := by exact_mod_cast hm
        calc ((m:ℚ)) / 10 ^ j < (10:ℚ) ^ (50:ℕ) / 10 ^ j :=
            (div_lt_div_right (by positivity)).mpr hmq
          _ = (10:ℚ) ^ ((50:ℤ) - j) := by
            rw [← zpow_natCast (10:ℚ) 50, ← zpow_natCast (10:ℚ) j,
              ← zpow_sub₀ (by norm_num : (10:ℚ) ≠ 0)]
            norm_num
      have h3 : (10:ℚ) ^ ((50:ℤ) - j) ≤ (10:ℚ) ^ (magQ x - 1) :=
        zpow_le_zpow_right₀ (by norm_num) (by omega)
      exact absurd (lt_of_lt_of_le h2 (h3.trans h1)) (lt_irrefl x)
    rw [decRound, if_neg hxpos.ne', if_neg (not_lt.mpr (le_of_lt hxpos)), decRoundPos]
    set s : ℤ := 50 - magQ x with hs
    have hsj : (j:ℤ) ≤ s := by omega
    have hks : (((s - j).toNat : ℤ)) = s - (j:ℤ) := Int.toNat_of_nonneg (by omega)
    have hcastN : ((m * 10 ^ (s - (j:ℤ)).toNat : ℕ) : ℚ) =
        (((m * 10 ^ (s - (j:ℤ)).toNat : ℕ) : ℤ) : ℚ) := by
      push_cast
      ring
    have hscale : qMul x (pow10 s) = ((m * 10 ^ (s - (j:ℤ)).toNat : ℕ) : ℚ) := by
      rw [qMul_eq, pow10_eq, hx]
      push_cast
      rw [div_mul_eq_mul_div, mul_div_assoc, ← zpow_natCast (10:ℚ) j,
        ← zpow_sub₀ (by norm_num : (10:ℚ) ≠ 0), ← hks, zpow_natCast]
      simp
    have hround : roundHalfEvenQ (qMul x (pow10 s)) =
        ((m * 10 ^ (s - (j:ℤ)).toNat : ℕ) : ℤ) := by
      rw [hscale, hcastN]
      exact roundHalfEvenQ_intCast _
    rw [hround, qMul_eq, qOfInt_eq, pow10_eq, hx]
    rw [← hcastN]
    have hzj : ((10:ℚ) ^ (j:ℕ)) ≠ 0 := by positivity
    have hzs : ((10:ℚ) ^ (s:ℤ)) ≠ 0 := zpow_ne_zero _ (by norm_num)
    rw [eq_div_iff hzj]
    push_cast
    rw [zpow_neg, ← zpow_natCast (10:ℚ) ((s - (j:ℤ)).toNat), hks,
      zpow_sub₀ (by norm_num : (10:ℚ) ≠ 0), ← zpow_natCast (10:ℚ) j]
    field_simp
    ring

/-! ## Facts about `fibonacci_distribution` -/

theorem fibonacci_one : fibonacci 1 = 1 := rfl

theorem fibSum_pos (count : ℕ) (h : 1 ≤ count) : 0 < fibSum count := by
  have hmem : fibonacci 1 ∈ fibonacci_sequence 1 count := by
    rw [fibonacci_sequence]
    have h0 : (0:ℕ) ∈ List.range count := List.mem_range.mpr (by omega)
    simpa using List.mem_map_of_mem (fun i => fibonacci (1 + i)) h0
  calc (0:ℕ) < 1 := one_pos
    _ = fibonacci 1 := rfl
    _ ≤ fibSum count := List.single_le_sum (fun x _ => Nat.zero_le x) _ hmem

theorem rawShares_length (total count : ℕ) : (rawShares total count).length = count := by
  rw [rawShares, List.length_map, fibonacci_sequence, List.length_map, List.length_range]

theorem rawShares_get? (total count i : ℕ) (h : i < count) :
    (rawShares total count).get? i = some (truncShare total (fibSum count) (fibonacci (1 + i))) := by
  rw [rawShares, List.get?_map, fibonacci_sequence, List.get?_map, List.get?_range h]
  rfl

theorem fibonacci_distribution_eq (total count : ℕ) (h : 1 ≤ count) :
    ∃ s0 rest, rawShares total count = s0 :: rest ∧
      fibonacci_distribution total count = (s0 + ((total : ℤ) - (s0 :: rest).sum)) :: rest := by
  have hlen := rawShares_length total count
  cases hraw : rawShares total count with
  | nil => rw [hraw] at hlen; simp at hlen; omega
  | cons s0 rest =>
    refine ⟨s0, rest, rfl, ?_⟩
    rw [fibonacci_distribution, if_neg (by omega), if_neg (fibSum_pos count h).ne', hraw]

theorem fibonacci_distribution_sum (total count : ℕ) (h : 1 ≤ count) :
    (fibonacci_distribution total count).sum = (total : ℤ) := by
  obtain ⟨s0, rest, _, hd⟩ := fibonacci_distribution_eq total count h
  rw [hd, List.sum_cons, List.sum_cons]
  ring

theorem fibonacci_distribution_length (total count : ℕ) :
    (fibonacci_distribution total count).length = count := by
  rcases Nat.eq_zero_or_pos count with rfl | h
  · rfl
  · obtain ⟨s0, rest, hraw, hd⟩ := fibonacci_distribution_eq total count h
    have := rawShares_length total count
    rw [hraw] at this
    rw [hd, List.length_cons]
    rw [List.length_cons] at this
    exact this

theorem fibonacci_distribution_get?_tail (total count i : ℕ) (h1 : 1 ≤ i) (h2 : i < count) :
    (fibonacci_distribution total count).get? i =
      some (truncShare total (fibSum count) (fibonacci (1 + i))) := by
  obtain ⟨s0, rest, hraw, hd⟩ := fibonacci_distribution_eq total count (by omega)
  obtain ⟨k, rfl⟩ : ∃ k, i = k + 1 := ⟨i - 1, by omega⟩
  rw [hd, List.get?_cons_succ, ← rawShares_get? total count (k+1) h2, hraw,
    List.get?_cons_succ]

theorem fibonacci_distribution_head? (total count : ℕ) (h : 1 ≤ count) :
    (fibonacci_distribution total count).head? =
      some (truncShare total (fibSum count) (fibonacci 1) +
        ((total : ℤ) - (rawShares total count).sum)) := by
  obtain ⟨s0, rest, hraw, hd⟩ := fibonacci_distribution_eq total count h
  have h0 : (rawShares total count).get? 0 = some s0 := by rw [hraw]; rfl
  rw [rawShares_get? total count 0 (by omega)] at h0
  rw [hd, List.head?_cons, hraw]
  simp only [Option.some_inj] at h0 ⊢
  rw [← h0]

theorem truncShare_nonneg (total totalFib fib : ℕ) : 0 ≤ truncShare total totalFib fib := by
  have hq : (0:ℚ) ≤ decMul (decDiv ((fib:ℚ)) ((totalFib:ℚ))) ((total:ℚ)) := by
    rw [decMul]
    apply decRound_nonneg
    rw [qMul_eq]
    have h1 : (0:ℚ) ≤ decDiv ((fib:ℚ)) ((totalFib:ℚ)) := by
      rw [decDiv]
      apply decRound_nonneg
      rw [qDiv_eq]
      positivity
    positivity
  rw [truncShare, decInt, if_neg (not_lt.mpr hq), ratFloor_eq]
  exact Int.floor_nonneg.mpr hq

/-! ## The performance-score update -/

theorem successScore_eq (old : ℚ) (a : ℕ) (ha : a ≤ 10 ^ 47) (hold : old = (a:ℚ) / 10 ^ 47) :
    successScore old = min 1 (old * (19/20) + 1/20) := by
  have hmk19 : mkRat 19 20 = (19:ℚ)/20 := by
    rw [Rat.mkRat_eq_div]
    norm_num
  have hmk1 : mkRat 1 20 = (1:ℚ)/20 := by
    rw [Rat.mkRat_eq_div]
    norm_num
  have hmul : decMul old (mkRat 19 20) = old * (19/20) := by
    rw [decMul, qMul_eq, hmk19]
    apply decRound_eq_of _ (95 * a) 49
    · calc 95 * a ≤ 95 * 10 ^ 47 := Nat.mul_le_mul_left 95 ha
        _ < 10 ^ 50 := by norm_num
    · rw [hold]
      push_cast
      rw [div_mul_div_comm, div_eq_div_iff (by positivity) (by positivity)]
      ring
  have hadd : decAdd (old * (19/20)) (mkRat 1 20) = old * (19/20) + 1/20 := by
    rw [decAdd, qAdd_eq, hmk1]
    apply decRound_eq_of _ (95 * a + 5 * 10 ^ 47) 49
    · calc 95 * a + 5 * 10 ^ 47 ≤ 95 * 10 ^ 47 + 5 * 10 ^ 47 :=
          Nat.add_le_add_right (Nat.mul_le_mul_left 95 ha) _
        _ < 10 ^ 50 := by norm_num
    · rw [hold]
      push_cast
      rw [div_mul_div_comm, div_add_div _ _ (by positivity) (by positivity),
        div_eq_div_iff (by positivity) (by positivity)]
      ring
  rw [successScore, hmul, hadd, pyMin_eq, min_comm]

theorem successScore_le_one (old : ℚ) : successScore old ≤ 1 := by
  rw [successScore, pyMin_eq]
  exact min_le_right _ _

/-! ## Registry lookup and update -/

theorem find?_map_of_addr (l : List Validator) (g : Validator → Validator)
    (hg : ∀ v, (g v).address = v.address) (q : String) :
    (l.map g).find? (fun v => v.address = q) = (l.find? (fun v => v.address = q)).map g := by
  induction l with
  | nil => rfl
  | cons a t ih =>
    by_cases hq : a.address = q
    · rw [List.map_cons, List.find?_cons_of_pos _ (by simp [hg, hq]),
        List.find?_cons_of_pos _ (by simp [hq])]
      rfl
    · rw [List.map_cons, List.find?_cons_of_neg _ (by simp [hg, hq]),
        List.find?_cons_of_neg _ (by simp [hq]), ih]

/-- The per-validator update applied by `_update_validator_performance`. -/
def perfUpdate (address : String) (success : Bool) (now : ℤ) (v : Validator) : Validator :=
  if v.address = address then
    { v with
      performance_score := if success then successScore v.performance_score
                           else decayScore v.performance_score,
      last_validated := now }
  else v

theorem perfUpdate_address (address : String) (success : Bool) (now : ℤ) (v : Validator) :
    (perfUpdate address success now v).address = v.address := by
  rw [perfUpdate]
  split <;> rfl

theorem update_validator_performance_def (s : PhiConsensus) (address : String)
    (success : Bool) (now : ℤ) :
    s.update_validator_performance address success now =
      if (s.lookup address).isNone then s
      else { s with validators := s.validators.map (perfUpdate address success now) } := rfl

theorem lookup_update_validator_performance (s : PhiConsensus) (address q : String)
    (success : Bool) (now : ℤ) :
    (s.update_validator_performance address success now).lookup q =
      (s.lookup q).map (perfUpdate address success now) := by
  rw [update_validator_performance_def]
  by_cases hnone : (s.lookup address).isNone
  · rw [if_pos hnone]
    cases hfind : s.lookup q with
    | none => rfl
    | some v =>
      have hvq : v.address = q := by simpa using List.find?_some hfind
      have hvne : ¬ (v.address = address) := by
        intro hcon
        rw [hvq] at hcon
        rw [hcon] at hfind
        rw [hfind] at hnone
        simp at hnone
      rw [Option.map_some']
      rw [perfUpdate, if_neg hvne]
  · rw [if_neg hnone]
    exact find?_map_of_addr s.validators _ (perfUpdate_address address success now) q

/-! ## `validate_block` case analysis -/

theorem validate_block_cases (s : PhiConsensus) (b : BlockData) (p : String) (now : ℤ) :
    ((s.validate_block b p now).1 = false ∧ (s.validate_block b p now).2 = s) ∨
    ((s.validate_block b p now).1 = true ∧
      (s.validate_block b p now).2 = s.update_validator_performance p true now ∧
      ∃ v, s.lookup p = some v ∧ v.is_active = true ∧
        verify_fibonacci_proof b.mathematical_proof b = true) := by
  rw [PhiConsensus.validate_block]
  split
  · exact Or.inl ⟨rfl, rfl⟩
  · rename_i v hl
    split_ifs with h1 h2 h3 h4
    · exact Or.inl ⟨rfl, rfl⟩
    · exact Or.inl ⟨rfl, rfl⟩
    · exact Or.inl ⟨rfl, rfl⟩
    · exact Or.inl ⟨rfl, rfl⟩
    · exact Or.inr ⟨rfl, rfl, v, hl, by simpa using h1, by simpa using h2⟩

theorem validate_block_false_state (s : PhiConsensus) (b : BlockData) (p : String) (now : ℤ)
    (h : (s.validate_block b p now).1 = false) : (s.validate_block b p now).2 = s := by
  rcases validate_block_cases s b p now with ⟨_, h2⟩ | ⟨h1, _⟩
  · exact h2
  · rw [h1] at h
    cases h

/-! ## `select_leader` case analysis -/

theorem select_leader_fst (s : PhiConsensus) (h : ℕ) :
    (s.select_leader h).1 =
      if s.activeList = [] then none
      else if s.totalPriority h = 0 then s.activeList.head?
      else s.activeList.get? (fibonacci (h % s.activeList.length) % s.activeList.length) := by
  rw [PhiConsensus.select_leader]
  by_cases hv : s.validators = []
  · have hA : s.activeList = [] := by
      rw [PhiConsensus.activeList, hv]
      rfl
    rw [if_pos hv, if_pos hA]
  · rw [if_neg hv]
    by_cases hA : s.activeList = []
    · rw [dif_pos hA, if_pos hA]
    · rw [dif_neg hA, if_neg hA]
      by_cases hT : s.totalPriority h = 0
      · rw [if_pos hT, if_pos hT]
        simp [List.head?_eq_head hA]
      · rw [if_neg hT, if_neg hT]
        have hlen : 0 < s.activeList.length := List.length_pos.mpr hA
        have hidx : fibonacci (h % s.activeList.length) % s.activeList.length <
            s.activeList.length := Nat.mod_lt _ hlen
        simp only [List.getD_eq_getD_get?]
        cases hg : s.activeList.get? (fibonacci (h % s.activeList.length) % s.activeList.length) with
        | none =>
          rw [List.get?_eq_none] at hg
          omega
        | some w => simp

theorem select_leader_snd (s : PhiConsensus) (h : ℕ) :
    (s.select_leader h).2 = s ∨
      ((s.select_leader h).1.isSome ∧ s.totalPriority h ≠ 0 ∧
       (s.select_leader h).2 =
        { s with
          current_leader_index :=
            fibonacci (h % s.activeList.length) % s.activeList.length,
          round_number := s.round_number + 1 }) := by
  rw [PhiConsensus.select_leader]
  by_cases hv : s.validators = []
  · rw [if_pos hv]
    exact Or.inl rfl
  · rw [if_neg hv]
    by_cases hA : s.activeList = []
    · rw [dif_pos hA]
      exact Or.inl rfl
    · rw [dif_neg hA]
      by_cases hT : s.totalPriority h = 0
      · rw [if_pos hT]
        exact Or.inl rfl
      · rw [if_neg hT]
        exact Or.inr ⟨rfl, hT, rfl⟩

theorem select_leader_validators (s : PhiConsensus) (h : ℕ) :
    (s.select_leader h).2.validators = s.validators := by
  rcases select_leader_snd s h with h2 | ⟨_, _, h2⟩ <;> rw [h2]

/-! ## Round-number monotonicity and registry-shape helpers -/

theorem add_validator_round (s : PhiConsensus) (a pk : String) (st : ℤ) (idx : Option ℕ) :
    ((s.add_validator a pk st idx).2).round_number = s.round_number := by
  rw [PhiConsensus.add_validator]
  split <;> rfl

theorem update_validator_performance_round (s : PhiConsensus) (a : String) (suc : Bool)
    (now : ℤ) : (s.update_validator_performance a suc now).round_number = s.round_number := by
  rw [update_validator_performance_def]
  split <;> rfl

theorem select_leader_round (s : PhiConsensus) (h : ℕ) :
    s.round_number ≤ ((s.select_leader h).2).round_number := by
  rcases select_leader_snd s h with h2 | ⟨_, _, h2⟩ <;> rw [h2]
  exact Nat.le_succ _

theorem validate_block_round (s : PhiConsensus) (b : BlockData) (p : String) (now : ℤ) :
    ((s.validate_block b p now).2).round_number = s.round_number := by
  rcases validate_block_cases s b p now with ⟨_, h2⟩ | ⟨_, h2, _⟩ <;> rw [h2]
  exact update_validator_performance_round s p true now

theorem applyOp_round (s : PhiConsensus) (op : EngineOp) :
    s.round_number ≤ (applyOp s op).round_number := by
  cases op with
  | addOp a pk st idx => exact le_of_eq (add_validator_round s a pk st idx).symm
  | selectOp h => exact select_leader_round s h
  | validateOp b p now => exact le_of_eq (validate_block_round s b p now).symm

theorem applyOps_round (ops : List EngineOp) :
    ∀ s : PhiConsensus, s.round_number ≤ (applyOps s ops).round_number := by
  induction ops with
  | nil => exact fun s => le_rfl
  | cons o t ih =>
    intro s
    exact (applyOp_round s o).trans (ih (applyOp s o))

theorem activeList_ne_validators_ne (s : PhiConsensus) (hA : s.activeList ≠ []) :
    s.validators ≠ [] := by
  intro hv
  apply hA
  rw [PhiConsensus.activeList, hv]
  rfl

theorem totalPriority_of_empty (s : PhiConsensus) (h : ℕ) (hA : s.activeList = []) :
    s.totalPriority h = 0 := by
  rw [PhiConsensus.totalPriority, hA]
  rfl

/-! ## `calculate_rewards` helpers -/

theorem calculate_rewards_map_snd (s : PhiConsensus) (h t : ℕ) (hA : s.activeList ≠ []) :
    (s.calculate_rewards h t).map Prod.snd = fibonacci_distribution t s.activeList.length := by
  rw [PhiConsensus.calculate_rewards, if_neg hA, List.map_map]
  apply List.ext_get?
  intro n
  rw [List.get?_map, List.get?_enum]
  cases hg : s.activeList.get? n with
  | none =>
    rw [List.get?_eq_none] at hg
    rw [Option.map_none', Option.map_none', eq_comm, List.get?_eq_none,
      fibonacci_distribution_length]
    exact hg
  | some v =>
    obtain ⟨hn, -⟩ := List.get?_eq_some.mp hg
    have hd : n < (fibonacci_distribution t s.activeList.length).length := by
      rw [fibonacci_distribution_length]
      exact hn
    have hw := List.get?_eq_get (l := fibonacci_distribution t s.activeList.length) hd
    rw [Option.map_some', Option.map_some', Function.comp_apply,
      List.getD_eq_getD_get?, hw]
    rfl

theorem calculate_rewards_sum (s : PhiConsensus) (h t : ℕ) (hA : s.activeList ≠ []) :
    ((s.calculate_rewards h t).map Prod.snd).sum = (t : ℤ) := by
  rw [calculate_rewards_map_snd s h t hA]
  exact fibonacci_distribution_sum t _ (by
    have := List.length_pos.mpr hA
    omega)

theorem calculate_rewards_head? (s : PhiConsensus) (h t : ℕ) (hA : s.activeList ≠ []) :
    (s.calculate_rewards h t).head? =
      ((s.activeList.head? ).map (fun v => v.address)).bind (fun addr =>
        ((fibonacci_distribution t s.activeList.length).head?).map (fun amt => (addr, amt))) := by
  rw [PhiConsensus.calculate_rewards, if_neg hA]
  cases hact : s.activeList with
  | nil => exact absurd hact hA
  | cons a rest =>
    have hd : 0 < (fibonacci_distribution t (a :: rest).length).length := by
      rw [fibonacci_distribution_length]
      simp
    cases hdist : fibonacci_distribution t (a :: rest).length with
    | nil =>
      rw [hdist] at hd
      simp at hd
    | cons d0 drest =>
      simp [List.enum_cons, List.getD, hdist]

/-! ## Claims -/

/-- C10: `calculate_rewards` is independent of its block-height argument:
for every registry state, every `total_reward`, and any two heights, the
returned reward mapping is identical (the body never reads the height). -/
theorem C10_height_independent (s : PhiConsensus) (t h1 h2 : ℕ) :
    s.calculate_rewards h1 t = s.calculate_rewards h2 t := rfl

/-- C6: calling `add_validator` with an address already present in the
registry returns failure and leaves the whole engine state unchanged
(registry size and every field of every validator included). -/
theorem C6_duplicate_rejected (s : PhiConsensus) (address public_key : String)
    (stake : ℤ) (fibonacci_index : Option ℕ)
    (h : ∃ v ∈ s.validators, v.address = address) :
    s.add_validator address public_key stake fibonacci_index = (false, s) := by
  rw [PhiConsensus.add_validator]
  have hs : (s.lookup address).isSome := by
    rw [PhiConsensus.lookup, List.find?_isSome]
    obtain ⟨v, hv, ha⟩ := h
    exact ⟨v, hv, by simp [ha]⟩
  rw [if_pos hs]

theorem C6_witness :
    (∃ v ∈ sA.validators, v.address = "a") ∧
    sA.add_validator "a" "other_key" 5 none = (false, sA) :=
  ⟨by decide, C6_duplicate_rejected sA "a" "other_key" 5 none (by decide)⟩

/-- C8: for every proposal and every registered active proposer,
`validate_block` returns `false` whenever the proof's `fibonacci_number`
differs from `fibonacci(height mod 1000)` or its `fibonacci_index`
differs from `height mod 1000`. -/
theorem C8_proof_mismatch (s : PhiConsensus) (b : BlockData) (p : String) (now : ℤ)
    (v : Validator) (hv : s.lookup p = some v) (hact : v.is_active = true)
    (hm : b.mathematical_proof.fibonacci_number ≠
        some (((fibonacci (b.height % 1000) : ℕ)) : ℤ) ∨
      b.mathematical_proof.fibonacci_index ≠ some (((b.height % 1000 : ℕ)) : ℤ)) :
    (s.validate_block b p now).1 = false := by
  have hverify : verify_fibonacci_proof b.mathematical_proof b = false := by
    simp only [verify_fibonacci_proof]
    rcases hm with hn | hi
    · rw [if_neg hn]
    · by_cases hn : b.mathematical_proof.fibonacci_number =
          some (((fibonacci (b.height % 1000) : ℕ)) : ℤ)
      · rw [if_pos hn, if_neg hi]
      · rw [if_neg hn]
  rcases validate_block_cases s b p now with ⟨h1, _⟩ | ⟨_, _, w, _, _, hproof⟩
  · exact h1
  · rw [hverify] at hproof
    cases hproof

theorem C8_witness :
    sA.lookup "a" = some vA ∧ vA.is_active = true ∧
    (badBlockA.mathematical_proof.fibonacci_number ≠
        some (((fibonacci (badBlockA.height % 1000) : ℕ)) : ℤ) ∨
      badBlockA.mathematical_proof.fibonacci_index ≠
        some (((badBlockA.height % 1000 : ℕ)) : ℤ)) ∧
    (sA.validate_block badBlockA "a" 5).1 = false :=
  ⟨by decide, by decide, Or.inl (by decide),
   C8_proof_mismatch sA badBlockA "a" 5 vA (by decide) (by decide) (Or.inl (by decide))⟩

/-- C4 (amended): for every `total ≥ 0` and `count ≥ 1` the shares of
`fibonacci_distribution(total, count)` sum exactly to `total`, with the
truncation leftover added entirely to slot 0; consequently, for every
registry with a non-empty active set, the values of `calculate_rewards`
sum exactly to `total_reward` and the remainder goes to the first
validator of the active list in registry *insertion* order (`"b"` in
`C4_counterexample`, not the address-sorted canonical first). -/
theorem C4_reward_conservation :
    (∀ total count : ℕ, 1 ≤ count →
      (fibonacci_distribution total count).sum = (total : ℤ) ∧
      (fibonacci_distribution total count).head? =
        some (truncShare total (fibSum count) (fibonacci 1) +
          ((total : ℤ) - (rawShares total count).sum))) ∧
    (∀ (s : PhiConsensus) (h t : ℕ), s.activeList ≠ [] →
      ((s.calculate_rewards h t).map Prod.snd).sum = (t : ℤ) ∧
      (s.calculate_rewards h t).head? =
        ((s.activeList.head?).map (fun v => v.address)).bind (fun addr =>
          ((fibonacci_distribution t s.activeList.length).head?).map
            (fun amt => (addr, amt)))) :=
  ⟨fun total count hc => ⟨fibonacci_distribution_sum total count hc,
     fibonacci_distribution_head? total count hc⟩,
   fun s h t hA => ⟨calculate_rewards_sum s h t hA, calculate_rewards_head? s h t hA⟩⟩

theorem C4_witness :
    ((1:ℕ) ≤ 4) ∧
    (fibonacci_distribution 7 4).sum = (7:ℤ) ∧
    (fibonacci_distribution 7 4).head? =
      some (truncShare 7 (fibSum 4) (fibonacci 1) + ((7:ℤ) - (rawShares 7 4).sum)) ∧
    sBA.activeList ≠ [] ∧
    ((sBA.calculate_rewards 0 1).map Prod.snd).sum = (1:ℤ) ∧
    (sBA.calculate_rewards 0 1).head? =
      ((sBA.activeList.head?).map (fun v => v.address)).bind (fun addr =>
        ((fibonacci_distribution 1 sBA.activeList.length).head?).map
          (fun amt => (addr, amt))) :=
  ⟨by norm_num,
   (C4_reward_conservation.1 7 4 (by norm_num)).1,
   (C4_reward_conservation.1 7 4 (by norm_num)).2,
   by decide,
   (C4_reward_conservation.2 sBA 0 1 (by decide)).1,
   (C4_reward_conservation.2 sBA 0 1 (by decide)).2⟩

/-- C4 counterexample: with validators inserted `"b"` then `"a"`, the
address-sorted canonical first active validator is `"a"`, but the whole
remainder of `calculate_rewards(·, 1)` goes to `"b"`: `"a"` receives `0`,
not the `floor share + leftover = 1` that the claim assigns to the first
validator in canonical order. -/
theorem C4_counterexample :
    (canonical_active_list sBA).head?.map (fun v => v.address) = some "a" ∧
    sBA.calculate_rewards 0 1 = [("b", 1), ("a", 0)] ∧
    List.lookup "a" (sBA.calculate_rewards 0 1) ≠
      some (truncShare 1 (fibSum 2) (fibonacci 1) + ((1:ℤ) - (rawShares 1 2).sum)) :=
  ⟨by decide, by decide, by decide⟩

/-- C5 (amended): for `total ≥ 0`, `count ≥ 1` and `i ∈ [1, count)`, the
i-th share of `fibonacci_distribution(total, count)` equals
`int(Decimal(F(i+1)) / Decimal(F(1)+⋯+F(count)) * Decimal(total))`
evaluated in the 50-significant-digit decimal context (a nonnegative
amount).  This is *not* always the exact integer floor
`⌊F(i+1)·total / ΣF⌋` claimed by the spec — see `C5_counterexample`. -/
theorem C5_share_formula (total count i : ℕ) (hc : 1 ≤ count) (h1 : 1 ≤ i)
    (h2 : i < count) :
    (fibonacci_distribution total count).get? i =
      some (truncShare total (fibSum count) (fibonacci (1 + i))) ∧
    0 ≤ truncShare total (fibSum count) (fibonacci (1 + i)) :=
  ⟨fibonacci_distribution_get?_tail total count i h1 h2, truncShare_nonneg _ _ _⟩

theorem C5_witness :
    ((1:ℕ) ≤ 4) ∧ ((1:ℕ) ≤ 2) ∧ ((2:ℕ) < 4) ∧
    (fibonacci_distribution 7 4).get? 2 =
      some (truncShare 7 (fibSum 4) (fibonacci (1 + 2))) ∧
    0 ≤ truncShare 7 (fibSum 4) (fibonacci (1 + 2)) :=
  ⟨by norm_num, by norm_num, by norm_num,
   (C5_share_formula 7 4 2 (by norm_num) (by norm_num) (by norm_num)).1,
   (C5_share_formula 7 4 2 (by norm_num) (by norm_num) (by norm_num)).2⟩

/-- C5 counterexample: `fibonacci_distribution(7, 4) = [2, 0, 2, 3]`; its
slot 1 is `0`, but the exact integer floor for slot 1 is
`F(2)·7 / (F(1)+F(2)+F(3)+F(4)) = 7/7 = 1`: the `Decimal` computation
`int(Decimal(1)/Decimal(7) * Decimal(7)) = int(0.99…98) = 0` loses the
exact value. -/
theorem C5_counterexample :
    fibonacci_distribution 7 4 = [2, 0, 2, 3] ∧
    ((fibonacci 2 * 7 : ℕ) : ℤ) / ((fibSum 4 : ℕ) : ℤ) = 1 ∧
    (fibonacci_distribution 7 4).get? 1 ≠
      some (((fibonacci 2 * 7 : ℕ) : ℤ) / ((fibSum 4 : ℕ) : ℤ)) :=
  ⟨by decide, by decide, by decide⟩

/-- Shared helper for C2: the leader returned by `select_leader` depends
only on the insertion-ordered active list. -/
theorem select_leader_fst_congr (s1 s2 : PhiConsensus) (h : ℕ)
    (heq : s1.activeList = s2.activeList) :
    (s1.select_leader h).1 = (s2.select_leader h).1 := by
  have hT : s1.totalPriority h = s2.totalPriority h := by
    rw [PhiConsensus.totalPriority, PhiConsensus.totalPriority, heq]
  rw [select_leader_fst, select_leader_fst, heq, hT]

/-- C1 (amended): `select_leader(h)` returns none exactly when there is no
active validator; when the total priority at `h` is nonzero it returns the
element at position `fibonacci(h mod N) mod N` of the active list in
registry insertion order (`N` the active count); when the total priority
is zero (e.g. whenever `h ≡ 0 mod 100`, since `fibonacci(0) = 0` nullifies
every priority) it falls back to the *first* active validator regardless
of the Fibonacci position — see `C1_counterexample`. -/
theorem C1_select_leader_formula (s : PhiConsensus) (h : ℕ) :
    ((s.select_leader h).1 = none ↔ s.activeList = []) ∧
    (s.totalPriority h ≠ 0 →
      (s.select_leader h).1 =
        s.activeList.get? (fibonacci (h % s.activeList.length) % s.activeList.length)) ∧
    (s.totalPriority h = 0 → s.activeList ≠ [] →
      (s.select_leader h).1 = s.activeList.head?) := by
  have hf := select_leader_fst s h
  by_cases hA : s.activeList = []
  · rw [if_pos hA] at hf
    refine ⟨by rw [hf]; simp [hA], fun hT => ?_, fun _ hne => absurd hA hne⟩
    exact absurd (totalPriority_of_empty s h hA) hT
  · by_cases hT : s.totalPriority h = 0
    · rw [if_neg hA, if_pos hT] at hf
      refine ⟨?_, fun hT' => absurd hT hT', fun _ _ => hf⟩
      rw [hf]
      simp [List.head?_eq_none_iff, hA]
    · rw [if_neg hA, if_neg hT] at hf
      refine ⟨?_, fun _ => hf, fun hT' => absurd hT' hT⟩
      rw [hf]
      have hidx : fibonacci (h % s.activeList.length) % s.activeList.length <
          s.activeList.length := Nat.mod_lt _ (List.length_pos.mpr hA)
      rw [iff_false_intro hA]
      simp only [iff_false]
      intro hnone
      rw [List.get?_eq_none] at hnone
      omega

theorem C1_witness :
    sAB.totalPriority 1 ≠ 0 ∧
    (sAB.select_leader 1).1 =
      sAB.activeList.get? (fibonacci (1 % sAB.activeList.length) % sAB.activeList.length) ∧
    sABC.totalPriority 0 = 0 ∧ sABC.activeList ≠ [] ∧
    (sABC.select_leader 0).1 = sABC.activeList.head? :=
  ⟨by decide, (C1_select_leader_formula sAB 1).2.1 (by decide), by decide, by decide,
   (C1_select_leader_formula sABC 0).2.2 (by decide) (by decide)⟩

/-- C1 counterexample: with three active validators `"a" < "b" < "c"`
(insertion order equal to canonical order) and height 100, the claimed
position is `fibonacci(100 mod 3) mod 3 = 1` (validator `"b"`), but
`fibonacci(100 mod 100) = 0` makes every priority zero, so the code
returns the fallback `active_validators[0]` = `"a"`. -/
theorem C1_counterexample :
    (sABC.select_leader 100).1 ≠
      (canonical_active_list sABC).get?
        (fibonacci (100 % (canonical_active_list sABC).length) %
          (canonical_active_list sABC).length) ∧
    (sABC.select_leader 100).1.map (fun v => v.address) = some "a" ∧
    ((canonical_active_list sABC).get?
        (fibonacci (100 % (canonical_active_list sABC).length) %
          (canonical_active_list sABC).length)).map (fun v => v.address) = some "b" ∧
    canonical_active_list sABC = sABC.activeList :=
  ⟨by decide, by decide, by decide, by decide⟩

/-- C2 (amended): the list backing `select_leader`,
`get_validator_rotation_schedule` and `calculate_rewards` is the active
validators in registry *insertion* order (not sorted by address): all
three are pure functions of that insertion-ordered active list, and
repeated `select_leader` calls with an unchanged registry return the same
leader; but two registries with the same active *set* in different
insertion orders may select different leaders — see `C2_counterexample`. -/
theorem C2_insertion_order_determinism :
    (∀ s1 s2 : PhiConsensus, s1.activeList = s2.activeList → ∀ h n t : ℕ,
      (s1.select_leader h).1 = (s2.select_leader h).1 ∧
      s1.get_validator_rotation_schedule n = s2.get_validator_rotation_schedule n ∧
      s1.calculate_rewards h t = s2.calculate_rewards h t) ∧
    (∀ (s : PhiConsensus) (h : ℕ),
      (((s.select_leader h).2).select_leader h).1 = (s.select_leader h).1) := by
  constructor
  · intro s1 s2 heq h n t
    refine ⟨select_leader_fst_congr s1 s2 h heq, ?_, ?_⟩
    · rw [PhiConsensus.get_validator_rotation_schedule,
        PhiConsensus.get_validator_rotation_schedule, heq]
    · rw [PhiConsensus.calculate_rewards, PhiConsensus.calculate_rewards, heq]
  · intro s h
    apply select_leader_fst_congr
    rw [PhiConsensus.activeList, PhiConsensus.activeList, select_leader_validators]

theorem C2_witness :
    ((sAB.select_leader 1).2).activeList = sAB.activeList ∧
    (((sAB.select_leader 1).2).select_leader 5).1 = (sAB.select_leader 5).1 ∧
    ((sAB.select_leader 1).2).get_validator_rotation_schedule 3 =
      sAB.get_validator_rotation_schedule 3 ∧
    ((sAB.select_leader 1).2).calculate_rewards 5 10 = sAB.calculate_rewards 5 10 ∧
    (((sAB.select_leader 1).2).select_leader 1).1 = (sAB.select_leader 1).1 :=
  ⟨by decide,
   (C2_insertion_order_determinism.1 ((sAB.select_leader 1).2) sAB (by decide) 5 3 10).1,
   (C2_insertion_order_determinism.1 ((sAB.select_leader 1).2) sAB (by decide) 5 3 10).2.1,
   (C2_insertion_order_determinism.1 ((sAB.select_leader 1).2) sAB (by decide) 5 3 10).2.2,
   C2_insertion_order_determinism.2 sAB 1⟩

/-- C2 counterexample: `sAB2` and `sBA2` hold the *identical* two
validator records (`"a"` with index 0, `"b"` with index 1) — the same
active set, the same canonical (address-sorted) list — differing only in
dict insertion order; yet `select_leader(1)` returns `"b"` on one and
`"a"` on the other, and the list backing selection is the insertion-order
list, not the canonical one. -/
theorem C2_counterexample :
    canonical_active_list sAB2 = canonical_active_list sBA2 ∧
    sAB2.activeList.map (fun v => v.address) = ["a", "b"] ∧
    sBA2.activeList.map (fun v => v.address) = ["b", "a"] ∧
    sBA2.activeList ≠ canonical_active_list sBA2 ∧
    (sAB2.select_leader 1).1 ≠ (sBA2.select_leader 1).1 ∧
    (sAB2.select_leader 1).1.map (fun v => v.address) = some "b" ∧
    (sBA2.select_leader 1).1.map (fun v => v.address) = some "a" :=
  ⟨by decide, by decide, by decide, by decide, by decide, by decide, by decide⟩

/-- C3 (amended): a `select_leader` call that selects through the
Fibonacci formula (nonzero total priority) returns a leader, increments
`round_number` by exactly one and sets `current_leader_index` to the
selected index; the zero-priority fallback returns a leader *without*
touching either counter (see `C3_counterexample`); and `round_number`
never decreases across any sequence of engine operations. -/
theorem C3_round_accounting (s : PhiConsensus) (h : ℕ) :
    (s.totalPriority h ≠ 0 → s.activeList ≠ [] →
      (s.select_leader h).1.isSome = true ∧
      (s.select_leader h).2.round_number = s.round_number + 1 ∧
      (s.select_leader h).2.current_leader_index =
        fibonacci (h % s.activeList.length) % s.activeList.length) ∧
    (∀ ops : List EngineOp, s.round_number ≤ (applyOps s ops).round_number) := by
  constructor
  · intro hT hA
    rw [PhiConsensus.select_leader,
      if_neg (activeList_ne_validators_ne s hA), dif_neg hA, if_neg hT]
    exact ⟨rfl, rfl, rfl⟩
  · intro ops
    exact applyOps_round ops s

theorem C3_witness :
    sAB.totalPriority 1 ≠ 0 ∧ sAB.activeList ≠ [] ∧
    (sAB.select_leader 1).1.isSome = true ∧
    (sAB.select_leader 1).2.round_number = sAB.round_number + 1 ∧
    (sAB.select_leader 1).2.current_leader_index =
      fibonacci (1 % sAB.activeList.length) % sAB.activeList.length ∧
    sAB.round_number ≤
      (applyOps sAB [EngineOp.selectOp 1, EngineOp.addOp "z" "pkz" 3 none]).round_number :=
  ⟨by decide, by decide,
   ((C3_round_accounting sAB 1).1 (by decide) (by decide)).1,
   ((C3_round_accounting sAB 1).1 (by decide) (by decide)).2.1,
   ((C3_round_accounting sAB 1).1 (by decide) (by decide)).2.2,
   (C3_round_accounting sAB 1).2 [EngineOp.selectOp 1, EngineOp.addOp "z" "pkz" 3 none]⟩

/-- C3 counterexample: at height 0 (`fibonacci(0 % 1) = 0`, so the total
priority is zero) `select_leader` *returns a leader* yet leaves
`round_number` unchanged at 0 instead of incrementing it by one. -/
theorem C3_counterexample :
    (sA.select_leader 0).1.isSome = true ∧
    (sA.select_leader 0).2.round_number = sA.round_number ∧
    sA.round_number = 0 ∧
    (sA.select_leader 0).2.round_number ≠ sA.round_number + 1 :=
  ⟨by decide, by decide, by decide, by decide⟩

/-- C7: a successful `validate_block` sets the proposer's
`performance_score` to `min(1.0, old*0.95 + 0.05)` (exactly, for every
score representable on the Decimal grid `a/10⁴⁷`, `a ≤ 10⁴⁷`, which
contains every score the engine ever stores) and sets `last_validated` to
the current time; and after any engine operation every stored
`performance_score` is at most `1.0`. -/
theorem C7_performance_update :
    (∀ (s : PhiConsensus) (b : BlockData) (p : String) (now : ℤ) (v : Validator) (a : ℕ),
      s.lookup p = some v → v.is_active = true →
      (s.validate_block b p now).1 = true →
      a ≤ 10 ^ 47 → v.performance_score = (a : ℚ) / 10 ^ 47 →
      ∃ v', ((s.validate_block b p now).2).lookup p = some v' ∧
        v'.performance_score = min 1 (v.performance_score * (19/20) + 1/20) ∧
        v'.last_validated = now) ∧
    (∀ (s : PhiConsensus) (op : EngineOp),
      (∀ v ∈ s.validators, v.performance_score ≤ 1) →
      ∀ v' ∈ (applyOp s op).validators, v'.performance_score ≤ 1) := by
  constructor
  · intro s b p now v a hv hact htrue hle hrep
    rcases validate_block_cases s b p now with ⟨h1, _⟩ | ⟨_, h2, _⟩
    · rw [htrue] at h1
      cases h1
    · rw [h2, lookup_update_validator_performance, hv, Option.map_some']
      have haddr : v.address = p := by simpa using List.find?_some hv
      refine ⟨_, rfl, ?_, ?_⟩
      · show (perfUpdate p true now v).performance_score = _
        rw [perfUpdate, if_pos haddr]
        exact successScore_eq v.performance_score a hle hrep
      · show (perfUpdate p true now v).last_validated = now
        rw [perfUpdate, if_pos haddr]
  · intro s op hinv v' hv'
    cases op with
    | addOp addr pk st idx =>
      by_cases hiS : (s.lookup addr).isSome
      · rw [show applyOp s (.addOp addr pk st idx) = (s.add_validator addr pk st idx).2
            from rfl, PhiConsensus.add_validator, if_pos hiS] at hv'
        exact hinv v' hv'
      · rw [show applyOp s (.addOp addr pk st idx) = (s.add_validator addr pk st idx).2
            from rfl, PhiConsensus.add_validator, if_neg hiS] at hv'
        rcases List.mem_append.mp hv' with hmem | hmem
        · exact hinv v' hmem
        · have hv2 := List.mem_singleton.mp hmem
          subst hv2
          exact le_refl _
    | selectOp h =>
      rw [show (applyOp s (.selectOp h)).validators = s.validators from
        select_leader_validators s h] at hv'
      exact hinv v' hv'
    | validateOp b p now =>
      rcases validate_block_cases s b p now with ⟨_, h2⟩ | ⟨_, h2, _⟩
      · rw [show applyOp s (.validateOp b p now) = (s.validate_block b p now).2 from rfl,
          h2] at hv'
        exact hinv v' hv'
      · rw [show applyOp s (.validateOp b p now) = (s.validate_block b p now).2 from rfl,
          h2, update_validator_performance_def] at hv'
        by_cases hn : (s.lookup p).isNone
        · rw [if_pos hn] at hv'
          exact hinv v' hv'
        · rw [if_neg hn] at hv'
          obtain ⟨u, hu, rfl⟩ := List.mem_map.mp hv'
          rw [perfUpdate]
          split
          · show successScore u.performance_score ≤ 1
            exact successScore_le_one _
          · exact hinv u hu

theorem C7_witness :
    sA.lookup "a" = some vA ∧ vA.is_active = true ∧
    (sA.validate_block goodBlockA "a" 9).1 = true ∧
    (10 ^ 47 : ℕ) ≤ 10 ^ 47 ∧
    vA.performance_score = ((10 ^ 47 : ℕ) : ℚ) / 10 ^ 47 ∧
    (∃ v', ((sA.validate_block goodBlockA "a" 9).2).lookup "a" = some v' ∧
      v'.performance_score = min 1 (vA.performance_score * (19/20) + 1/20) ∧
      v'.last_validated = 9) ∧
    (∀ v ∈ sA.validators, v.performance_score ≤ 1) ∧
    (∀ v' ∈ (applyOp sA (EngineOp.selectOp 1)).validators, v'.performance_score ≤ 1) :=
  ⟨by decide, by decide, by decide, le_refl _, by norm_num [vA],
   C7_performance_update.1 sA goodBlockA "a" 9 vA (10 ^ 47) (by decide) (by decide)
     (by decide) (le_refl _) (by norm_num [vA]),
   by decide,
   C7_performance_update.2 sA (EngineOp.selectOp 1) (by decide)⟩

/-- C9: whenever `validate_block` returns `false` the engine state is
unchanged (the proposer's `performance_score` and `last_validated`
included); and after any engine operation every stored score is either the
prior score unchanged, the success update `min(1, old*0.95+0.05)`, or the
initial `1.0` of a freshly added validator — the `score *= 0.9` decay
branch is never executed. -/
theorem C9_failure_preserves_state (s : PhiConsensus) (b : BlockData) (p : String)
    (now : ℤ) :
    ((s.validate_block b p now).1 = false → (s.validate_block b p now).2 = s) ∧
    (∀ (op : EngineOp) (q : String) (v' : Validator),
      (applyOp s op).lookup q = some v' →
      (∃ v, s.lookup q = some v ∧
        (v'.performance_score = v.performance_score ∨
         v'.performance_score = successScore v.performance_score)) ∨
      v'.performance_score = 1) := by
  constructor
  · exact validate_block_false_state s b p now
  · intro op q v' hq
    cases op with
    | addOp addr pk st idx =>
      by_cases hiS : (s.lookup addr).isSome
      · rw [show applyOp s (.addOp addr pk st idx) = (s.add_validator addr pk st idx).2
            from rfl, PhiConsensus.add_validator, if_pos hiS] at hq
        exact Or.inl ⟨v', hq, Or.inl rfl⟩
      · rw [show applyOp s (.addOp addr pk st idx) = (s.add_validator addr pk st idx).2
            from rfl, PhiConsensus.add_validator, if_neg hiS] at hq
        rw [show ∀ t : PhiConsensus, t.lookup q =
          t.validators.find? (fun v => v.address = q) from fun t => rfl] at hq
        rw [List.find?_append] at hq
        cases h1 : s.validators.find? (fun v => v.address = q) with
        | some w =>
          rw [h1] at hq
          rw [Option.or_some] at hq
          exact Or.inl ⟨v', by rw [PhiConsensus.lookup, h1, ← hq], Or.inl rfl⟩
        | none =>
          rw [h1] at hq
          rw [Option.none_or] at hq
          rw [List.find?_singleton] at hq
          split at hq
          · right
            rw [← Option.some_inj.mp hq]
          · cases hq
    | selectOp h =>
      rw [show applyOp s (.selectOp h) = (s.select_leader h).2 from rfl,
        PhiConsensus.lookup, select_leader_validators] at hq
      exact Or.inl ⟨v', hq, Or.inl rfl⟩
    | validateOp b2 p2 now2 =>
      rcases validate_block_cases s b2 p2 now2 with ⟨_, h2⟩ | ⟨_, h2, _⟩
      · rw [show applyOp s (.validateOp b2 p2 now2) = (s.validate_block b2 p2 now2).2
            from rfl, h2] at hq
        exact Or.inl ⟨v', hq, Or.inl rfl⟩
      · rw [show applyOp s (.validateOp b2 p2 now2) = (s.validate_block b2 p2 now2).2
            from rfl, h2, lookup_update_validator_performance] at hq
        cases hlq : s.lookup q with
        | none =>
          rw [hlq] at hq
          cases hq
        | some v =>
          rw [hlq, Option.map_some'] at hq
          obtain rfl := Option.some_inj.mp hq
          left
          refine ⟨v, rfl, ?_⟩
          rw [perfUpdate]
          split
          · exact Or.inr rfl
          · exact Or.inl rfl

theorem C9_witness :
    ((sA.validate_block badBlockA "a" 5).1 = false ∧
     (sA.validate_block badBlockA "a" 5).2 = sA) ∧
    ((∃ v, sA.lookup "a" = some v ∧
       ((perfUpdate "a" true 9 vA).performance_score = v.performance_score ∨
        (perfUpdate "a" true 9 vA).performance_score = successScore v.performance_score)) ∨
     (perfUpdate "a" true 9 vA).performance_score = 1) :=
  ⟨⟨by decide, (C9_failure_preserves_state sA badBlockA "a" 5).1 (by decide)⟩,
   (C9_failure_preserves_state sA goodBlockA "a" 9).2
     (EngineOp.validateOp goodBlockA "a" 9) "a" (perfUpdate "a" true 9 vA) (by decide)⟩

end PhiChain